import Mathlib

set_option maxRecDepth 40000

/-!
Verification of the recipekeeper ingredient-line parser and renderers.

The development shallowly embeds `src/main.py` (the function `parse_ingredient`,
the unit alias table `mealmaster_units`, the renderer `generate_mealmaster`,
and the recipe dictionary built by `parse_recipe`) and `src/convert.py`
(the key-value dump `save_recipes_to_file`).

`parse_ingredient` applies the Python regular expression

  `^\s* (?P<amount>\d+\s+\d+/\d+|\d+/\d+|\d+(?:\.\d+)?)? \s* (?P<unit>c|cup|...|slice)? \s* (?P<ingredient>.+?) \s*$`

compiled with `re.IGNORECASE | re.VERBOSE`, via `re.match`.  The embedding
implements the backtracking semantics of exactly this pattern in
continuation-passing style: greedy repetition tries the longest extent first
and backtracks, the alternation of unit aliases is tried left to right in the
insertion order of the Python dict, the optional groups are greedy, and the
ingredient group `.+?` is lazy.  Character classes (`\s`, `\d`, `.`), case
folding and `str.strip` are modelled at ASCII precision, which covers every
alias of the table and all inputs considered here.
-/

namespace RecipeKeeper

/-- A string viewed as its list of characters. -/
abbrev Str := List Char

/-- Python regex `\s` / `str.strip` whitespace (ASCII part): space, tab,
newline, carriage return, vertical tab, form feed. -/
def isSpacePy (c : Char) : Bool :=
  c.toNat = 32 || c.toNat = 9 || c.toNat = 10 || c.toNat = 13 ||
  c.toNat = 11 || c.toNat = 12

/-- Python regex `\d` (ASCII part): the characters 0-9. -/
def isDigitPy (c : Char) : Bool :=
  48 ≤ c.toNat && c.toNat ≤ 57

/-- Python regex `.` without DOTALL: any character except a newline. -/
def isDotPy (c : Char) : Bool :=
  c.toNat ≠ 10

/-- Python `str.lower` / regex IGNORECASE case folding (ASCII part): shift
A-Z down by 32, leave everything else unchanged. -/
def toLowerPy (c : Char) : Char :=
  if 65 ≤ c.toNat && c.toNat ≤ 90 then Char.ofNat (c.toNat + 32) else c

/-- Lower-case every character of a string. -/
def lowerL (s : Str) : Str := s.map toLowerPy

/-- Greedy Kleene star over a character class, in continuation-passing style:
the longest extent is tried first, shorter extents on backtracking.  The
continuation receives the consumed characters and the remaining input. -/
def starG (p : Char → Bool) : Str → (Str → Str → Option α) → Option α
  | [], k => k [] []
  | c :: rest, k =>
    if p c then
      match starG p rest (fun con rem => k (c :: con) rem) with
      | some r => some r
      | none => k [] (c :: rest)
    else k [] (c :: rest)

/-- Greedy `+` over a character class: one mandatory character, then `starG`. -/
def plusG (p : Char → Bool) (s : Str) (k : Str → Str → Option α) : Option α :=
  match s with
  | [] => none
  | c :: rest => if p c then starG p rest (fun con rem => k (c :: con) rem) else none

/-- Lazy `+?` over a character class: the shortest extent is tried first. -/
def plusL (p : Char → Bool) : Str → (Str → Str → Option α) → Option α
  | [], _ => none
  | c :: rest, k =>
    if p c then
      match k [c] rest with
      | some r => some r
      | none => plusL p rest (fun con rem => k (c :: con) rem)
    else none

/-- Match one exact (case-sensitive) character. -/
def charE (a : Char) (s : Str) (k : Str → Option α) : Option α :=
  match s with
  | [] => none
  | c :: rest => if c = a then k rest else none

/-- Match a literal case-insensitively (IGNORECASE); the continuation receives
the matched input characters in their original casing. -/
def litCI : Str → Str → (Str → Str → Option α) → Option α
  | [], s, k => k [] s
  | _ :: _, [], _ => none
  | a :: as, c :: cs, k =>
    if toLowerPy a = toLowerPy c then litCI as cs (fun con rem => k (c :: con) rem)
    else none

/-- Ordered alternation over literals, as Python tries `a|b|c` left to right,
backtracking into later alternatives when the continuation fails. -/
def altLitsCI : List Str → Str → (Str → Str → Option α) → Option α
  | [], _, _ => none
  | l :: ls, s, k =>
    match litCI l s k with
    | some r => some r
    | none => altLitsCI ls s k

/-- Greedy optional group `(...)?`: matching is preferred over skipping. -/
def optG (m : Str → (Str → Str → Option α) → Option α) (s : Str)
    (k : Option Str → Str → Option α) : Option α :=
  match m s (fun con rem => k (some con) rem) with
  | some r => some r
  | none => k none s

/-- The `mealmaster_units` dict of `src/main.py`, in insertion order. -/
def mealmaster_units : List (String × String) :=
  [("c", "c"), ("cup", "c"), ("cups", "c"),
   ("ts", "ts"), ("teaspoon", "ts"), ("teaspoons", "ts"),
   ("tb", "tb"), ("tablespoon", "tb"), ("tablespoons", "tb"),
   ("oz", "oz"), ("ounce", "oz"), ("ounces", "oz"),
   ("lb", "lb"), ("pound", "lb"), ("pounds", "lb"),
   ("g", "g"), ("gram", "g"), ("grams", "g"),
   ("kg", "kg"), ("kilogram", "kg"), ("kilograms", "kg"),
   ("ml", "ml"), ("milliliter", "ml"), ("milliliters", "ml"),
   ("l", "l"), ("liter", "l"), ("liters", "l"),
   ("pn", "pn"), ("pinch", "pn"),
   ("ds", "ds"), ("dash", "ds"),
   ("sl", "sl"), ("slice", "sl")]

/-- Python `mealmaster_units.get(u)` (the keys are distinct). -/
def unitLookup (u : String) : Option String :=
  (mealmaster_units.find? (fun p => p.1 == u)).map (fun p => p.2)

/-- The alternation `units_pattern = "|".join(mealmaster_units.keys())`: the
dict keys in insertion order. -/
def unitKeys : List Str := mealmaster_units.map (fun p => p.1.toList)

/-- The raw capture groups of a successful regex match: `amount` and `unit`
may be absent, `ingredient` always participates. -/
structure RawCaps where
  amount : Option Str
  unit : Option Str
  ingredient : Str
deriving DecidableEq

/-- Tail of the pattern from the ingredient group on:
`(?P<ingredient>.+?) \s* $`. -/
def pIngEnd (a u : Option Str) (r : Str) : Option RawCaps :=
  plusL isDotPy r (fun ing r5 =>
    starG isSpacePy r5 (fun _ r6 =>
      if r6 = [] then some ⟨a, u, ing⟩ else none))

/-- Tail of the pattern from the unit group on:
`(?P<unit>...)? \s* (?P<ingredient>.+?) \s* $`. -/
def pUnit (a : Option Str) (r : Str) : Option RawCaps :=
  optG (altLitsCI unitKeys) r (fun u r3 =>
    starG isSpacePy r3 (fun _ r4 => pIngEnd a u r4))

/-- The non-capturing fraction tail `\.\d+` of the third amount alternative. -/
def fracM (s : Str) (k : Str → Str → Option α) : Option α :=
  charE '.' s (fun r2 =>
    plusG isDigitPy r2 (fun cd rd => k ('.' :: cd) rd))

/-- First amount alternative, the mixed number `\d+\s+\d+/\d+`. -/
def amtMixed (s : Str) (k : Str → Str → Option α) : Option α :=
  plusG isDigitPy s (fun c1 r1 =>
    plusG isSpacePy r1 (fun c2 r2 =>
    plusG isDigitPy r2 (fun c3 r3 =>
    charE '/' r3 (fun r4 =>
    plusG isDigitPy r4 (fun c4 r5 =>
    k (c1 ++ c2 ++ c3 ++ '/' :: c4) r5)))))

/-- Second amount alternative, the simple fraction `\d+/\d+`. -/
def amtFrac (s : Str) (k : Str → Str → Option α) : Option α :=
  plusG isDigitPy s (fun c1 r1 =>
    charE '/' r1 (fun r2 =>
    plusG isDigitPy r2 (fun c2 r3 =>
    k (c1 ++ '/' :: c2) r3)))

/-- Third amount alternative, the decimal-or-integer `\d+(?:\.\d+)?`. -/
def amtNum (s : Str) (k : Str → Str → Option α) : Option α :=
  plusG isDigitPy s (fun c1 r1 =>
    optG fracM r1 (fun copt r2 => k (c1 ++ copt.getD []) r2))

/-- The amount group `\d+\s+\d+/\d+|\d+/\d+|\d+(?:\.\d+)?`, alternatives in
source order: mixed number, then simple fraction, then decimal-or-integer. -/
def amountM (s : Str) (k : Str → Str → Option α) : Option α :=
  match amtMixed s k with
  | some r => some r
  | none =>
  match amtFrac s k with
  | some r => some r
  | none => amtNum s k

/-- Tail of the pattern from the amount group on:
`(?P<amount>...)? \s* (?P<unit>...)? \s* (?P<ingredient>.+?) \s* $`. -/
def pAmount (r : Str) : Option RawCaps :=
  optG amountM r (fun a r1 =>
    starG isSpacePy r1 (fun _ r2 => pUnit a r2))

/-- The whole anchored pattern applied with `re.match`: `^\s*` then the rest. -/
def parse_core (s : Str) : Option RawCaps :=
  starG isSpacePy s (fun _ r0 => pAmount r0)

/-- Python `str.strip` (ASCII whitespace). -/
def stripL (s : Str) : Str :=
  ((s.dropWhile isSpacePy).reverse.dropWhile isSpacePy).reverse

/-- Python `str.strip` on strings. -/
def stripS (s : String) : String := String.mk (stripL s.toList)

/-- Lower-case a string, Python `str.lower` (ASCII part). -/
def toLowerS (s : String) : String := String.mk (lowerL s.toList)

/-- The parsed triple returned by `parse_ingredient`. -/
structure Ingredient where
  amount : String
  unit : String
  ingredient : String
deriving DecidableEq

/-- The function `parse_ingredient` of `src/main.py`: run the regex; on a match, take the
captures, default absent groups to `""`, lower-case the unit and map it through
the alias table (defaulting to the matched token), and strip the ingredient;
on no match fall back to the stripped line as the ingredient. -/
def parse_ingredient (line : String) : Ingredient :=
  match parse_core line.toList with
  | some caps =>
    let amount : String :=
      match caps.amount with
      | some a => String.mk a
      | none => ""
    let unit : String :=
      match caps.unit with
      | some u =>
        let lu := toLowerS (String.mk u)
        (unitLookup lu).getD lu
      | none => ""
    { amount := amount, unit := unit, ingredient := stripS (String.mk caps.ingredient) }
  | none =>
    { amount := "", unit := "", ingredient := stripS line }

/-!  The recipe dictionary and the two renderers.

`parse_recipe` (src/main.py, lines 83-130) builds one Python dict per recipe
with exactly the keys `title`, `course`, `categories`, `serving_size`,
`ingredients`, `directions`.  `generate_mealmaster` (lines 133-177) reads the
keys `title`, `categories`, `yield_amount`, `ingredients`, `directions` with
`dict.get` defaults.  The dict is modelled as a structure of optional fields,
one per key either side ever touches, so that present and absent keys are
distinguished faithfully.  -/

/-- A recipe dict: `none` models an absent key. -/
structure RecipeDict where
  title : Option String
  course : Option String
  categories : Option (List String)
  serving_size : Option String
  yield_amount : Option String
  ingredients : Option (List Ingredient)
  directions : Option (List String)

/-- The dict appended by `parse_recipe` in `src/main.py` (lines 121-128): the
extracted yield is stored under the key `serving_size`; no `yield_amount` key
is ever created. -/
def mkParsedRecipe (title course : String) (categories : List String)
    (serving_size : String) (ingredients : List Ingredient)
    (directions : List String) : RecipeDict :=
  { title := some title, course := some course, categories := some categories,
    serving_size := some serving_size, yield_amount := none,
    ingredients := some ingredients, directions := some directions }

/-- Python `sep.join(xs)`. -/
def joinSep (sep : String) : List String → String
  | [] => ""
  | [x] => x
  | x :: xs => x ++ sep ++ joinSep sep xs

/-- A run of `n` spaces. -/
def spacesS (n : Nat) : String := String.mk (List.replicate n ' ')

/-- Python `str.rjust(w)`: pad on the left with spaces up to width `w`. -/
def rjustS (s : String) (w : Nat) : String := spacesS (w - s.length) ++ s

/-- Python `str.ljust(w)`: pad on the right with spaces up to width `w`. -/
def ljustS (s : String) (w : Nat) : String := s ++ spacesS (w - s.length)

/-- The banner line of the Mealmaster header (src/main.py line 157). -/
def mmBanner : String :=
  "MMMMM----------------Meal-Master recipe exported by AnyMeal-----------------"

/-- One ingredient line of the Mealmaster body (src/main.py lines 165-168):
amount right-justified to width 7, a space, unit left-justified to width 2,
a space, then the ingredient text. -/
def mmIngLine (i : Ingredient) : String :=
  rjustS i.amount 7 ++ " " ++ ljustS i.unit 2 ++ " " ++ i.ingredient

/-- The function `generate_mealmaster` of `src/main.py`: header f-string, one line per
ingredient, a blank line, each direction followed by a blank line, the
`MMMMM` footer, and a final `str.strip` of the whole block.  (The Python
default for a missing `directions` key is `""`, over which the loop iterates
zero times, indistinguishable from the empty list used here.) -/
def generate_mealmaster (recipe : RecipeDict) : String :=
  let title := recipe.title.getD "Untitled Recipe"
  let categories := recipe.categories.getD []
  let yield_amount := recipe.yield_amount.getD ""
  let ingredients := recipe.ingredients.getD []
  let directions := recipe.directions.getD []
  let header :=
    "\n" ++ mmBanner ++ "\n     Title: " ++ title ++
    "\nCategories: " ++ joinSep ", " categories ++
    "\n  Servings: " ++ (if yield_amount = "" then "1" else yield_amount) ++
    " serving\n\n"
  let body := header ++ String.join (ingredients.map (fun i => mmIngLine i ++ "\n"))
  let withDirs := body ++ "\n" ++ String.join (directions.map (fun d => d ++ "\n\n"))
  stripS (withDirs ++ "MMMMM\n")

/-- A recipe of `src/convert.py`: its `parse_recipe` (lines 31-35) stores the
ingredients as the raw paragraph strings, without calling any parser. -/
structure ConvRecipe where
  title : String
  course : String
  categories : List String
  serving_size : String
  ingredients : List String
  directions : List String
deriving DecidableEq

/-- The text written for one recipe by `save_recipes_to_file` of
`src/convert.py` (lines 56-67). -/
def convRecipeBlock (r : ConvRecipe) : String :=
  "Title: " ++ r.title ++ "\n" ++
  "Course: " ++ r.course ++ "\n" ++
  "Categories: " ++ joinSep ", " r.categories ++ "\n" ++
  "Serving Size: " ++ r.serving_size ++ "\n" ++
  "Ingredients:\n" ++
  String.join (r.ingredients.map (fun i => "  - " ++ i ++ "\n")) ++
  "Directions:\n" ++
  String.join (r.directions.map (fun d => "  - " ++ d ++ "\n")) ++
  "\n"

/-- The function `save_recipes_to_file` of `src/convert.py`: the full text written to the
output file for a list of recipes. -/
def save_recipes_to_file (rs : List ConvRecipe) : String :=
  String.join (rs.map convRecipeBlock)

/-- Split a character list at newlines. -/
def splitNl : Str → List Str
  | [] => [[]]
  | c :: rest =>
    if c = '\n' then [] :: splitNl rest
    else
      match splitNl rest with
      | [] => [[c]]
      | l :: ls => (c :: l) :: ls

/-- The list of lines of a string. -/
def linesOf (s : String) : List String := (splitNl s.toList).map String.mk

/-- Boolean membership in a list of strings. -/
def memS (x : String) : List String → Bool
  | [] => false
  | y :: ys => if x = y then true else memS x ys

/-- Boolean list-prefix test. -/
def isPrefL : Str → Str → Bool
  | [], _ => true
  | _ :: _, [] => false
  | a :: as, b :: bs => a = b && isPrefL as bs

/-- Boolean substring test on character lists. -/
def isSubOf (sub : Str) : Str → Bool
  | [] => isPrefL sub []
  | c :: rest => isPrefL sub (c :: rest) || isSubOf sub rest

/-- A literal is non-empty and its first character does not case-fold to
whitespace (true of every unit alias). -/
def keyHeadOk : Str → Bool
  | [] => false
  | a :: _ => !(isSpacePy (toLowerPy a))

/-- The possible results of running the tail of the pattern on whitespace-only
input: either failure, or a match whose ingredient capture is one whitespace
character (which `str.strip` then empties). -/
def SpGood (a u : Option Str) (o : Option RawCaps) : Prop :=
  o = none ∨ ∃ c, isSpacePy c = true ∧ o = some ⟨a, u, [c]⟩

/-!  Supporting lemmas. -/

theorem toNat_ofNat_valid {n : Nat} (h : n.isValidChar) : (Char.ofNat n).toNat = n := by
  unfold Char.ofNat
  rw [dif_pos h]
  simp [Char.ofNatAux, Char.toNat, UInt32.toNat]

theorem charEq_iff_toNat {a b : Char} : a = b ↔ a.toNat = b.toNat := by
  constructor
  · intro h
    rw [h]
  · intro h
    exact Char.eq_of_val_eq (UInt32.toNat.inj h)

theorem toLowerPy_toNat (c : Char) :
    (toLowerPy c).toNat =
      if 65 ≤ c.toNat && c.toNat ≤ 90 then c.toNat + 32 else c.toNat := by
  unfold toLowerPy
  by_cases h : (65 ≤ c.toNat && c.toNat ≤ 90) = true
  · have hb : 65 ≤ c.toNat ∧ c.toNat ≤ 90 := by
      simpa [Bool.and_eq_true, decide_eq_true_eq] using h
    rw [if_pos h, if_pos h]
    exact toNat_ofNat_valid (Or.inl (by omega))
  · rw [if_neg h, if_neg h]

theorem isSpacePy_lower (c : Char) : isSpacePy (toLowerPy c) = isSpacePy c := by
  have h := toLowerPy_toNat c
  by_cases h65 : (65 ≤ c.toNat && c.toNat ≤ 90) = true
  · rw [if_pos h65] at h
    have hb : 65 ≤ c.toNat ∧ c.toNat ≤ 90 := by
      simpa [Bool.and_eq_true, decide_eq_true_eq] using h65
    have l1 : isSpacePy (toLowerPy c) = false := by
      simp only [isSpacePy, h, Bool.or_eq_false_iff, decide_eq_false_iff_not]
      omega
    have l2 : isSpacePy c = false := by
      simp only [isSpacePy, Bool.or_eq_false_iff, decide_eq_false_iff_not]
      omega
    rw [l1, l2]
  · rw [if_neg h65] at h
    simp only [isSpacePy, h]

theorem isDigitPy_lower (c : Char) : isDigitPy (toLowerPy c) = isDigitPy c := by
  have h := toLowerPy_toNat c
  by_cases h65 : (65 ≤ c.toNat && c.toNat ≤ 90) = true
  · rw [if_pos h65] at h
    have hb : 65 ≤ c.toNat ∧ c.toNat ≤ 90 := by
      simpa [Bool.and_eq_true, decide_eq_true_eq] using h65
    have l1 : isDigitPy (toLowerPy c) = false := by
      simp only [isDigitPy, h, Bool.and_eq_false_iff, decide_eq_false_iff_not]
      omega
    have l2 : isDigitPy c = false := by
      simp only [isDigitPy, Bool.and_eq_false_iff, decide_eq_false_iff_not]
      omega
    rw [l1, l2]
  · rw [if_neg h65] at h
    simp only [isDigitPy, h]

theorem isDotPy_lower (c : Char) : isDotPy (toLowerPy c) = isDotPy c := by
  have h := toLowerPy_toNat c
  by_cases h65 : (65 ≤ c.toNat && c.toNat ≤ 90) = true
  · rw [if_pos h65] at h
    have hb : 65 ≤ c.toNat ∧ c.toNat ≤ 90 := by
      simpa [Bool.and_eq_true, decide_eq_true_eq] using h65
    have l1 : isDotPy (toLowerPy c) = true := by
      simp only [isDotPy, h, decide_eq_true_eq]
      omega
    have l2 : isDotPy c = true := by
      simp only [isDotPy, decide_eq_true_eq]
      omega
    rw [l1, l2]
  · rw [if_neg h65] at h
    simp only [isDotPy, h]

theorem toLowerPy_idem (c : Char) : toLowerPy (toLowerPy c) = toLowerPy c := by
  by_cases h65 : (65 ≤ c.toNat && c.toNat ≤ 90) = true
  · have hb : 65 ≤ c.toNat ∧ c.toNat ≤ 90 := by
      simpa [Bool.and_eq_true, decide_eq_true_eq] using h65
    have h1 : (toLowerPy c).toNat = c.toNat + 32 := by
      rw [toLowerPy_toNat c, if_pos h65]
    have h2 : ¬(65 ≤ (toLowerPy c).toNat && (toLowerPy c).toNat ≤ 90) = true := by
      simp only [h1, Bool.and_eq_true, decide_eq_true_eq, not_and]
      omega
    rw [charEq_iff_toNat, toLowerPy_toNat (toLowerPy c), if_neg h2]
  · have h1 : (toLowerPy c).toNat = c.toNat := by
      rw [toLowerPy_toNat c, if_neg h65]
    rw [charEq_iff_toNat, toLowerPy_toNat (toLowerPy c), h1, if_neg h65]

theorem toLowerPy_eq_low {a : Char} (ha : a.toNat < 65) (c : Char) :
    toLowerPy c = a ↔ c = a := by
  rw [charEq_iff_toNat, charEq_iff_toNat, toLowerPy_toNat c]
  by_cases h65 : (65 ≤ c.toNat && c.toNat ≤ 90) = true
  · have hb : 65 ≤ c.toNat ∧ c.toNat ≤ 90 := by
      simpa [Bool.and_eq_true, decide_eq_true_eq] using h65
    rw [if_pos h65]
    omega
  · rw [if_neg h65]

theorem space_not_digit {c : Char} (h : isSpacePy c = true) : isDigitPy c = false := by
  simp only [isSpacePy, Bool.or_eq_true, decide_eq_true_eq] at h
  simp only [isDigitPy, Bool.and_eq_false_iff, decide_eq_false_iff_not]
  omega

theorem lower_ne_of_space {a c : Char} (ha : isSpacePy (toLowerPy a) = false)
    (hc : isSpacePy c = true) : toLowerPy a ≠ toLowerPy c := by
  intro h
  rw [h, isSpacePy_lower, hc] at ha
  exact Bool.noConfusion ha

theorem plusG_nil (p : Char → Bool) (k : Str → Str → Option α) :
    plusG p [] k = none := rfl

theorem amountM_nil (k : Str → Str → Option α) : amountM [] k = none := rfl

theorem amountM_cons_false {c : Char} (h : isDigitPy c = false) (rest : Str)
    (k : Str → Str → Option α) : amountM (c :: rest) k = none := by
  simp [amountM, amtMixed, amtFrac, amtNum, plusG, h]

theorem litCI_nil_input (a : Char) (as : Str) (k : Str → Str → Option α) :
    litCI (a :: as) [] k = none := rfl

theorem litCI_head_ne {a c : Char} (h : toLowerPy a ≠ toLowerPy c) (as cs : Str)
    (k : Str → Str → Option α) : litCI (a :: as) (c :: cs) k = none := by
  simp [litCI, h]

theorem unitKeys_headOk : unitKeys.all keyHeadOk = true := by decide

theorem altLits_spaces {ls : List Str} (hl : ls.all keyHeadOk = true) :
    ∀ (s : Str), (∀ c ∈ s, isSpacePy c = true) →
    ∀ (k : Str → Str → Option α), altLitsCI ls s k = none := by
  induction ls with
  | nil => intro s _ k; rfl
  | cons l ls ih =>
    intro s hs k
    simp only [List.all_cons, Bool.and_eq_true] at hl
    obtain ⟨h1, h2⟩ := hl
    cases l with
    | nil => exact absurd h1 (by simp [keyHeadOk])
    | cons a as =>
      have ha : isSpacePy (toLowerPy a) = false := by
        simpa [keyHeadOk] using h1
      cases s with
      | nil =>
        simp only [altLitsCI, litCI_nil_input]
        exact ih h2 [] (by simp) k
      | cons c cs =>
        have hc : isSpacePy c = true := hs c (by simp)
        simp only [altLitsCI, litCI_head_ne (lower_ne_of_space ha hc)]
        exact ih h2 (c :: cs) hs k

theorem starG_spaces_end (v : RawCaps) :
    ∀ (s : Str), (∀ c ∈ s, isSpacePy c = true) →
    starG isSpacePy s (fun _ r => if r = [] then some v else none) = some v := by
  intro s
  induction s with
  | nil => intro _; rfl
  | cons c rest ih =>
    intro hs
    have hc : isSpacePy c = true := hs c (by simp)
    have hrest : ∀ x ∈ rest, isSpacePy x = true := fun x hx => hs x (by simp [hx])
    simp only [starG, hc, if_true]
    rw [ih hrest]

theorem pIngEnd_spaces (a u : Option Str) :
    ∀ (s : Str), (∀ c ∈ s, isSpacePy c = true) → SpGood a u (pIngEnd a u s) := by
  intro s hs
  cases s with
  | nil => exact Or.inl rfl
  | cons c rest =>
    have hc : isSpacePy c = true := hs c (by simp)
    have hrest : ∀ x ∈ rest, isSpacePy x = true := fun x hx => hs x (by simp [hx])
    by_cases hdot : isDotPy c = true
    · right
      refine ⟨c, hc, ?_⟩
      simp only [pIngEnd, plusL, hdot, if_true]
      rw [starG_spaces_end _ rest hrest]
    · have hdot' : isDotPy c = false := by
        cases h : isDotPy c
        · rfl
        · exact absurd h hdot
      left
      simp [pIngEnd, plusL, hdot']

theorem starG_spaces_chain (a u : Option Str) (K : Str → Option RawCaps)
    (hK : ∀ t, (∀ c ∈ t, isSpacePy c = true) → SpGood a u (K t)) :
    ∀ (s : Str), (∀ c ∈ s, isSpacePy c = true) →
    SpGood a u (starG isSpacePy s (fun _ r => K r)) := by
  intro s
  induction s with
  | nil =>
    intro _
    simpa [starG] using hK [] (by simp)
  | cons c rest ih =>
    intro hs
    have hc : isSpacePy c = true := hs c (by simp)
    have hrest : ∀ x ∈ rest, isSpacePy x = true := fun x hx => hs x (by simp [hx])
    have h1 := ih hrest
    simp only [starG, hc, if_true]
    rcases h1 with h1 | ⟨d, hd, h1⟩
    · rw [h1]
      simpa using hK (c :: rest) hs
    · rw [h1]
      exact Or.inr ⟨d, hd, rfl⟩

theorem pUnit_spaces (a : Option Str) :
    ∀ (s : Str), (∀ c ∈ s, isSpacePy c = true) → SpGood a none (pUnit a s) := by
  intro s hs
  simp only [pUnit, optG]
  rw [altLits_spaces unitKeys_headOk s hs]
  exact starG_spaces_chain a none (fun r => pIngEnd a none r)
    (fun t ht => pIngEnd_spaces a none t ht) s hs

theorem pAmount_spaces :
    ∀ (s : Str), (∀ c ∈ s, isSpacePy c = true) → SpGood none none (pAmount s) := by
  intro s hs
  have ham : ∀ (k : Str → Str → Option RawCaps), amountM s k = none := by
    intro k
    cases s with
    | nil => exact amountM_nil k
    | cons c rest => exact amountM_cons_false (space_not_digit (hs c (by simp))) rest k
  simp only [pAmount, optG]
  rw [ham]
  exact starG_spaces_chain none none (fun r => pUnit none r)
    (fun t ht => pUnit_spaces none t ht) s hs

theorem parse_core_spaces :
    ∀ (s : Str), (∀ c ∈ s, isSpacePy c = true) → SpGood none none (parse_core s) := by
  intro s hs
  exact starG_spaces_chain none none (fun r => pAmount r)
    (fun t ht => pAmount_spaces t ht) s hs

theorem stripL_spaces {s : Str} (hs : ∀ c ∈ s, isSpacePy c = true) : stripL s = [] := by
  unfold stripL
  rw [List.dropWhile_eq_nil_iff.mpr (fun c hc => hs c hc)]
  rfl

/-!  Case folding commutes with the matcher: running the pattern on the
lower-cased input is running it on the original input with all captures and
remainders lower-cased.  This is the engine-level content of IGNORECASE. -/

@[simp] theorem map_toLowerPy (s : Str) : List.map toLowerPy s = lowerL s := rfl

@[simp] theorem lowerL_nil : lowerL [] = [] := rfl

@[simp] theorem lowerL_cons (c : Char) (s : Str) :
    lowerL (c :: s) = toLowerPy c :: lowerL s := rfl

@[simp] theorem lowerL_append (s t : Str) :
    lowerL (s ++ t) = lowerL s ++ lowerL t := List.map_append ..

@[simp] theorem lowerL_eq_nil (s : Str) : lowerL s = [] ↔ s = [] := by
  cases s <;> simp

@[simp] theorem lowerL_getD (o : Option Str) :
    lowerL (o.getD []) = (o.map lowerL).getD [] := by
  cases o <;> rfl

theorem lowerL_idem (s : Str) : lowerL (lowerL s) = lowerL s := by
  induction s with
  | nil => rfl
  | cons c rest ih => simp only [lowerL_cons, toLowerPy_idem, ih]

theorem lower_slash : toLowerPy '/' = '/' := by decide

theorem lower_dot : toLowerPy '.' = '.' := by decide

theorem starG_lower {p : Char → Bool} (hp : ∀ c, p (toLowerPy c) = p c) :
    ∀ (s : Str) (k : Str → Str → Option α),
    starG p (lowerL s) k = starG p s (fun con rem => k (lowerL con) (lowerL rem)) := by
  intro s
  induction s with
  | nil => intro k; rfl
  | cons c rest ih =>
    intro k
    simp only [lowerL_cons, starG, hp c, map_toLowerPy]
    by_cases hc : p c = true
    · simp only [hc, if_true]
      rw [ih (fun con rem => k (toLowerPy c :: con) rem)]
      simp only [lowerL_cons, lowerL_nil, map_toLowerPy]
    · have hc' : p c = false := by
        cases hcc : p c
        · rfl
        · exact absurd hcc hc
      simp only [hc', Bool.false_eq_true, if_false, lowerL_cons, lowerL_nil,
        map_toLowerPy]

theorem plusG_lower {p : Char → Bool} (hp : ∀ c, p (toLowerPy c) = p c) :
    ∀ (s : Str) (k : Str → Str → Option α),
    plusG p (lowerL s) k = plusG p s (fun con rem => k (lowerL con) (lowerL rem)) := by
  intro s k
  cases s with
  | nil => rfl
  | cons c rest =>
    simp only [lowerL_cons, plusG, hp c, map_toLowerPy]
    by_cases hc : p c = true
    · simp only [hc, if_true]
      rw [starG_lower hp rest (fun con rem => k (toLowerPy c :: con) rem)]
    · have hc' : p c = false := by
        cases hcc : p c
        · rfl
        · exact absurd hcc hc
      simp only [hc', Bool.false_eq_true, if_false]

theorem plusL_lower {p : Char → Bool} (hp : ∀ c, p (toLowerPy c) = p c) :
    ∀ (s : Str) (k : Str → Str → Option α),
    plusL p (lowerL s) k = plusL p s (fun con rem => k (lowerL con) (lowerL rem)) := by
  intro s
  induction s with
  | nil => intro k; rfl
  | cons c rest ih =>
    intro k
    simp only [lowerL_cons, plusL, hp c, map_toLowerPy]
    by_cases hc : p c = true
    · simp only [hc, if_true]
      rw [ih (fun con rem => k (toLowerPy c :: con) rem)]
      simp only [lowerL_cons, lowerL_nil, map_toLowerPy]
    · have hc' : p c = false := by
        cases hcc : p c
        · rfl
        · exact absurd hcc hc
      simp only [hc', Bool.false_eq_true, if_false]

theorem charE_lower {a : Char} (ha : ∀ c, toLowerPy c = a ↔ c = a) :
    ∀ (s : Str) (k : Str → Option α),
    charE a (lowerL s) k = charE a s (fun rem => k (lowerL rem)) := by
  intro s k
  cases s with
  | nil => rfl
  | cons c rest =>
    simp only [lowerL_cons, charE]
    by_cases hc : c = a
    · rw [if_pos ((ha c).mpr hc), if_pos hc]
    · rw [if_neg (fun h => hc ((ha c).mp h)), if_neg hc]

theorem charE_lower_slash (s : Str) (k : Str → Option α) :
    charE '/' (lowerL s) k = charE '/' s (fun rem => k (lowerL rem)) :=
  charE_lower (fun c => toLowerPy_eq_low (by decide) c) s k

theorem charE_lower_dot (s : Str) (k : Str → Option α) :
    charE '.' (lowerL s) k = charE '.' s (fun rem => k (lowerL rem)) :=
  charE_lower (fun c => toLowerPy_eq_low (by decide) c) s k

theorem litCI_lower : ∀ (lit s : Str) (k : Str → Str → Option α),
    litCI lit (lowerL s) k = litCI lit s (fun con rem => k (lowerL con) (lowerL rem)) := by
  intro lit
  induction lit with
  | nil => intro s k; rfl
  | cons a as ih =>
    intro s k
    cases s with
    | nil => rfl
    | cons c cs =>
      simp only [lowerL_cons, litCI, toLowerPy_idem, map_toLowerPy]
      by_cases hac : toLowerPy a = toLowerPy c
      · rw [if_pos hac, if_pos hac, ih cs (fun con rem => k (toLowerPy c :: con) rem)]
      · rw [if_neg hac, if_neg hac]

theorem altLitsCI_lower : ∀ (ls : List Str) (s : Str) (k : Str → Str → Option α),
    altLitsCI ls (lowerL s) k =
      altLitsCI ls s (fun con rem => k (lowerL con) (lowerL rem)) := by
  intro ls
  induction ls with
  | nil => intro s k; rfl
  | cons l ls ih =>
    intro s k
    simp only [altLitsCI]
    rw [litCI_lower l s k, ih s k]

theorem optG_lower {m : Str → (Str → Str → Option α) → Option α}
    (hm : ∀ (s : Str) (k : Str → Str → Option α),
      m (lowerL s) k = m s (fun con rem => k (lowerL con) (lowerL rem)))
    (s : Str) (k : Option Str → Str → Option α) :
    optG m (lowerL s) k = optG m s (fun o rem => k (o.map lowerL) (lowerL rem)) := by
  simp only [optG]
  rw [hm s (fun con rem => k (some con) rem)]
  simp only [Option.map_some', Option.map_none']

theorem fracM_lower : ∀ (s : Str) (k : Str → Str → Option α),
    fracM (lowerL s) k = fracM s (fun con rem => k (lowerL con) (lowerL rem)) := by
  intro s k
  simp only [fracM, charE_lower_dot, plusG_lower isDigitPy_lower, lowerL_cons, lower_dot]

theorem amtMixed_lower : ∀ (s : Str) (k : Str → Str → Option α),
    amtMixed (lowerL s) k = amtMixed s (fun con rem => k (lowerL con) (lowerL rem)) := by
  intro s k
  simp only [amtMixed, plusG_lower isDigitPy_lower, plusG_lower isSpacePy_lower,
    charE_lower_slash, lowerL_append, lowerL_cons, lower_slash]

theorem amtFrac_lower : ∀ (s : Str) (k : Str → Str → Option α),
    amtFrac (lowerL s) k = amtFrac s (fun con rem => k (lowerL con) (lowerL rem)) := by
  intro s k
  simp only [amtFrac, plusG_lower isDigitPy_lower, charE_lower_slash,
    lowerL_append, lowerL_cons, lower_slash]

theorem amtNum_lower : ∀ (s : Str) (k : Str → Str → Option α),
    amtNum (lowerL s) k = amtNum s (fun con rem => k (lowerL con) (lowerL rem)) := by
  intro s k
  simp only [amtNum, plusG_lower isDigitPy_lower, optG_lower fracM_lower,
    lowerL_append, lowerL_getD]

theorem amountM_lower : ∀ (s : Str) (k : Str → Str → Option α),
    amountM (lowerL s) k = amountM s (fun con rem => k (lowerL con) (lowerL rem)) := by
  intro s k
  simp only [amountM]
  rw [amtMixed_lower s k, amtFrac_lower s k, amtNum_lower s k]

/-!  Naturality of the combinators: mapping a function over every success of
the continuation maps it over the overall result.  Stated with two pointwise
related continuations. -/

theorem starG_pair {p : Char → Bool} {f : α → β} :
    ∀ (s : Str) (k₁ : Str → Str → Option α) (k₂ : Str → Str → Option β),
    (∀ con rem, k₂ con rem = (k₁ con rem).map f) →
    starG p s k₂ = (starG p s k₁).map f := by
  intro s
  induction s with
  | nil => intro k₁ k₂ h; exact h [] []
  | cons c rest ih =>
    intro k₁ k₂ h
    by_cases hc : p c = true
    · simp only [starG, hc, if_true]
      rw [ih (fun con rem => k₁ (c :: con) rem) (fun con rem => k₂ (c :: con) rem)
          (fun con rem => h (c :: con) rem)]
      cases h' : starG p rest (fun con rem => k₁ (c :: con) rem) with
      | none => simpa using h [] (c :: rest)
      | some x => simp
    · have hc' : p c = false := by
        cases hcc : p c
        · rfl
        · exact absurd hcc hc
      simp only [starG, hc', Bool.false_eq_true, if_false]
      exact h [] (c :: rest)

theorem plusG_pair {p : Char → Bool} {f : α → β}
    (s : Str) (k₁ : Str → Str → Option α) (k₂ : Str → Str → Option β)
    (h : ∀ con rem, k₂ con rem = (k₁ con rem).map f) :
    plusG p s k₂ = (plusG p s k₁).map f := by
  cases s with
  | nil => rfl
  | cons c rest =>
    by_cases hc : p c = true
    · simp only [plusG, hc, if_true]
      exact starG_pair rest _ _ (fun con rem => h (c :: con) rem)
    · have hc' : p c = false := by
        cases hcc : p c
        · rfl
        · exact absurd hcc hc
      simp only [plusG, hc', Bool.false_eq_true, if_false, Option.map_none']

theorem plusL_pair {p : Char → Bool} {f : α → β} :
    ∀ (s : Str) (k₁ : Str → Str → Option α) (k₂ : Str → Str → Option β),
    (∀ con rem, k₂ con rem = (k₁ con rem).map f) →
    plusL p s k₂ = (plusL p s k₁).map f := by
  intro s
  induction s with
  | nil => intro k₁ k₂ h; rfl
  | cons c rest ih =>
    intro k₁ k₂ h
    by_cases hc : p c = true
    · simp only [plusL, hc, if_true]
      rw [h [c] rest]
      cases h' : k₁ [c] rest with
      | none =>
        simp only [Option.map_none']
        exact ih (fun con rem => k₁ (c :: con) rem) (fun con rem => k₂ (c :: con) rem)
          (fun con rem => h (c :: con) rem)
      | some x => simp
    · have hc' : p c = false := by
        cases hcc : p c
        · rfl
        · exact absurd hcc hc
      simp only [plusL, hc', Bool.false_eq_true, if_false, Option.map_none']

theorem charE_pair {a : Char} {f : α → β}
    (s : Str) (k₁ : Str → Option α) (k₂ : Str → Option β)
    (h : ∀ rem, k₂ rem = (k₁ rem).map f) :
    charE a s k₂ = (charE a s k₁).map f := by
  cases s with
  | nil => rfl
  | cons c rest =>
    by_cases hc : c = a
    · simp only [charE, if_pos hc]
      exact h rest
    · simp only [charE, if_neg hc, Option.map_none']

theorem litCI_pair {f : α → β} :
    ∀ (lit s : Str) (k₁ : Str → Str → Option α) (k₂ : Str → Str → Option β),
    (∀ con rem, k₂ con rem = (k₁ con rem).map f) →
    litCI lit s k₂ = (litCI lit s k₁).map f := by
  intro lit
  induction lit with
  | nil => intro s k₁ k₂ h; exact h [] s
  | cons a as ih =>
    intro s k₁ k₂ h
    cases s with
    | nil => rfl
    | cons c cs =>
      by_cases hac : toLowerPy a = toLowerPy c
      · simp only [litCI, if_pos hac]
        exact ih cs _ _ (fun con rem => h (c :: con) rem)
      · simp only [litCI, if_neg hac, Option.map_none']

theorem altLitsCI_pair {f : α → β} :
    ∀ (ls : List Str) (s : Str) (k₁ : Str → Str → Option α) (k₂ : Str → Str → Option β),
    (∀ con rem, k₂ con rem = (k₁ con rem).map f) →
    altLitsCI ls s k₂ = (altLitsCI ls s k₁).map f := by
  intro ls
  induction ls with
  | nil => intro s k₁ k₂ h; rfl
  | cons l ls ih =>
    intro s k₁ k₂ h
    simp only [altLitsCI]
    rw [litCI_pair l s k₁ k₂ h]
    cases h' : litCI l s k₁ with
    | none =>
      simp only [Option.map_none']
      exact ih s k₁ k₂ h
    | some x => simp

theorem optG_pair {f : α → β} {m₁ : Str → (Str → Str → Option α) → Option α}
    {m₂ : Str → (Str → Str → Option β) → Option β}
    (hm : ∀ (s : Str) (k₁ : Str → Str → Option α) (k₂ : Str → Str → Option β),
      (∀ con rem, k₂ con rem = (k₁ con rem).map f) → m₂ s k₂ = (m₁ s k₁).map f)
    (s : Str) (k₁ : Option Str → Str → Option α) (k₂ : Option Str → Str → Option β)
    (h : ∀ o rem, k₂ o rem = (k₁ o rem).map f) :
    optG m₂ s k₂ = (optG m₁ s k₁).map f := by
  simp only [optG]
  rw [hm s (fun con rem => k₁ (some con) rem) (fun con rem => k₂ (some con) rem)
      (fun con rem => h (some con) rem)]
  cases h' : m₁ s (fun con rem => k₁ (some con) rem) with
  | none => simpa using h none s
  | some x => simp

theorem fracM_pair {f : α → β}
    (s : Str) (k₁ : Str → Str → Option α) (k₂ : Str → Str → Option β)
    (h : ∀ con rem, k₂ con rem = (k₁ con rem).map f) :
    fracM s k₂ = (fracM s k₁).map f := by
  simp only [fracM]
  apply charE_pair
  intro rem
  apply plusG_pair
  intro con rem2
  exact h _ rem2

theorem amtMixed_pair {f : α → β}
    (s : Str) (k₁ : Str → Str → Option α) (k₂ : Str → Str → Option β)
    (h : ∀ con rem, k₂ con rem = (k₁ con rem).map f) :
    amtMixed s k₂ = (amtMixed s k₁).map f := by
  simp only [amtMixed]
  apply plusG_pair
  intro c1 r1
  apply plusG_pair
  intro c2 r2
  apply plusG_pair
  intro c3 r3
  apply charE_pair
  intro r4
  apply plusG_pair
  intro c4 r5
  exact h _ r5

theorem amtFrac_pair {f : α → β}
    (s : Str) (k₁ : Str → Str → Option α) (k₂ : Str → Str → Option β)
    (h : ∀ con rem, k₂ con rem = (k₁ con rem).map f) :
    amtFrac s k₂ = (amtFrac s k₁).map f := by
  simp only [amtFrac]
  apply plusG_pair
  intro c1 r1
  apply charE_pair
  intro r2
  apply plusG_pair
  intro c2 r3
  exact h _ r3

theorem amtNum_pair {f : α → β}
    (s : Str) (k₁ : Str → Str → Option α) (k₂ : Str → Str → Option β)
    (h : ∀ con rem, k₂ con rem = (k₁ con rem).map f) :
    amtNum s k₂ = (amtNum s k₁).map f := by
  simp only [amtNum]
  apply plusG_pair
  intro c1 r1
  apply optG_pair (fun s k₁ k₂ hk => fracM_pair s k₁ k₂ hk)
  intro o rem
  exact h _ rem

theorem amountM_pair {f : α → β}
    (s : Str) (k₁ : Str → Str → Option α) (k₂ : Str → Str → Option β)
    (h : ∀ con rem, k₂ con rem = (k₁ con rem).map f) :
    amountM s k₂ = (amountM s k₁).map f := by
  simp only [amountM]
  rw [amtMixed_pair s k₁ k₂ h]
  cases h1 : amtMixed s k₁ with
  | some x => simp
  | none =>
    simp only [Option.map_none']
    rw [amtFrac_pair s k₁ k₂ h]
    cases h2 : amtFrac s k₁ with
    | some x => simp
    | none =>
      simp only [Option.map_none']
      exact amtNum_pair s k₁ k₂ h

/-!  Success-source lemmas: a successful match pins down which continuation
call produced it, giving the invariant that the amount and unit stored by the
pattern tails are exactly the arguments passed in. -/

theorem starG_some {p : Char → Bool} :
    ∀ {s : Str} {k : Str → Str → Option α} {x : α},
    starG p s k = some x → ∃ con rem, k con rem = some x := by
  intro s
  induction s with
  | nil => intro k x h; exact ⟨[], [], h⟩
  | cons c rest ih =>
    intro k x h
    by_cases hc : p c = true
    · simp only [starG, hc, if_true] at h
      cases h' : starG p rest (fun con rem => k (c :: con) rem) with
      | some y =>
        rw [h'] at h
        simp only [Option.some.injEq] at h
        subst h
        obtain ⟨con, rem, hk⟩ := ih h'
        exact ⟨c :: con, rem, hk⟩
      | none =>
        rw [h'] at h
        exact ⟨[], c :: rest, h⟩
    · have hc' : p c = false := by
        cases hcc : p c
        · rfl
        · exact absurd hcc hc
      simp only [starG, hc', Bool.false_eq_true, if_false] at h
      exact ⟨[], c :: rest, h⟩

theorem plusL_some {p : Char → Bool} :
    ∀ {s : Str} {k : Str → Str → Option α} {x : α},
    plusL p s k = some x → ∃ con rem, k con rem = some x := by
  intro s
  induction s with
  | nil => intro k x h; exact absurd h (by simp [plusL])
  | cons c rest ih =>
    intro k x h
    by_cases hc : p c = true
    · simp only [plusL, hc, if_true] at h
      cases h' : k [c] rest with
      | some y =>
        rw [h'] at h
        simp only [Option.some.injEq] at h
        subst h
        exact ⟨[c], rest, h'⟩
      | none =>
        rw [h'] at h
        obtain ⟨con, rem, hk⟩ := ih h
        exact ⟨c :: con, rem, hk⟩
    · have hc' : p c = false := by
        cases hcc : p c
        · rfl
        · exact absurd hcc hc
      simp only [plusL, hc', Bool.false_eq_true, if_false] at h
      exact absurd h (by simp)

theorem litCI_some :
    ∀ {lit s : Str} {k : Str → Str → Option α} {x : α},
    litCI lit s k = some x → ∃ con rem, k con rem = some x := by
  intro lit
  induction lit with
  | nil => intro s k x h; exact ⟨[], s, h⟩
  | cons a as ih =>
    intro s k x h
    cases s with
    | nil => exact absurd h (by simp [litCI])
    | cons c cs =>
      by_cases hac : toLowerPy a = toLowerPy c
      · simp only [litCI, if_pos hac] at h
        obtain ⟨con, rem, hk⟩ := ih h
        exact ⟨c :: con, rem, hk⟩
      · simp only [litCI, if_neg hac] at h
        exact absurd h (by simp)

theorem altLitsCI_some :
    ∀ {ls : List Str} {s : Str} {k : Str → Str → Option α} {x : α},
    altLitsCI ls s k = some x → ∃ con rem, k con rem = some x := by
  intro ls
  induction ls with
  | nil => intro s k x h; exact absurd h (by simp [altLitsCI])
  | cons l ls ih =>
    intro s k x h
    simp only [altLitsCI] at h
    cases h' : litCI l s k with
    | some y =>
      rw [h'] at h
      simp only [Option.some.injEq] at h
      subst h
      exact litCI_some h'
    | none =>
      rw [h'] at h
      exact ih h

theorem optG_some {m : Str → (Str → Str → Option α) → Option α}
    {s : Str} {k : Option Str → Str → Option α} {x : α}
    (hm : ∀ (k' : Str → Str → Option α) (y : α),
      m s k' = some y → ∃ con rem, k' con rem = some y)
    (h : optG m s k = some x) :
    (∃ con rem, k (some con) rem = some x) ∨ k none s = some x := by
  simp only [optG] at h
  cases h' : m s (fun con rem => k (some con) rem) with
  | some y =>
    rw [h'] at h
    simp only [Option.some.injEq] at h
    subst h
    exact Or.inl (hm _ _ h')
  | none =>
    rw [h'] at h
    exact Or.inr h

theorem pIngEnd_au {a u : Option Str} {r : Str} {caps : RawCaps}
    (h : pIngEnd a u r = some caps) : caps.amount = a ∧ caps.unit = u := by
  obtain ⟨con, rem, h2⟩ := plusL_some h
  obtain ⟨con2, rem2, h3⟩ := starG_some h2
  by_cases he : rem2 = []
  · rw [if_pos he] at h3
    cases h3
    exact ⟨rfl, rfl⟩
  · rw [if_neg he] at h3
    exact absurd h3 (by simp)

theorem pUnit_amount {a : Option Str} {r : Str} {caps : RawCaps}
    (h : pUnit a r = some caps) : caps.amount = a := by
  simp only [pUnit] at h
  rcases optG_some (fun k' y hy => altLitsCI_some hy) h with ⟨con, rem, h2⟩ | h2
  · obtain ⟨con2, rem2, h3⟩ := starG_some h2
    exact (pIngEnd_au h3).1
  · obtain ⟨con2, rem2, h3⟩ := starG_some h2
    exact (pIngEnd_au h3).1

/-!  Stage lemmas: lower-casing the input lower-cases the captures. -/

theorem pIngEnd_lower (a u a' u' : Option Str) (r : Str) :
    pIngEnd a' u' (lowerL r) =
      (pIngEnd a u r).map (fun caps => ⟨a', u', lowerL caps.ingredient⟩) := by
  simp only [pIngEnd]
  rw [plusL_lower isDotPy_lower r]
  apply plusL_pair
  intro ing r5
  rw [starG_lower isSpacePy_lower r5]
  apply starG_pair
  intro con rem
  by_cases he : rem = []
  · subst he
    simp
  · rw [if_neg (by simpa using he), if_neg he]
    simp

theorem pUnit_lower (a a' : Option Str) (r : Str) :
    pUnit a' (lowerL r) =
      (pUnit a r).map
        (fun caps => ⟨a', caps.unit.map lowerL, lowerL caps.ingredient⟩) := by
  simp only [pUnit]
  rw [optG_lower (fun s k => altLitsCI_lower unitKeys s k) r]
  apply optG_pair (fun s k₁ k₂ hk => altLitsCI_pair unitKeys s k₁ k₂ hk)
  intro o rem
  rw [starG_lower isSpacePy_lower rem]
  apply starG_pair
  intro con rem2
  rw [pIngEnd_lower a o a' (o.map lowerL) rem2]
  cases hpe : pIngEnd a o rem2 with
  | none => rfl
  | some caps =>
    have hu : caps.unit = o := (pIngEnd_au hpe).2
    simp [hu]

theorem pAmount_lower (r : Str) :
    pAmount (lowerL r) =
      (pAmount r).map
        (fun caps =>
          ⟨caps.amount.map lowerL, caps.unit.map lowerL, lowerL caps.ingredient⟩) := by
  simp only [pAmount]
  rw [optG_lower (fun s k => amountM_lower s k) r]
  apply optG_pair (fun s k₁ k₂ hk => amountM_pair s k₁ k₂ hk)
  intro o rem
  rw [starG_lower isSpacePy_lower rem]
  apply starG_pair
  intro con rem2
  rw [pUnit_lower o (o.map lowerL) rem2]
  cases hpu : pUnit o rem2 with
  | none => rfl
  | some caps =>
    have ha : caps.amount = o := pUnit_amount hpu
    simp [ha]

theorem parse_core_lower (s : Str) :
    parse_core (lowerL s) =
      (parse_core s).map
        (fun caps =>
          ⟨caps.amount.map lowerL, caps.unit.map lowerL, lowerL caps.ingredient⟩) := by
  simp only [parse_core]
  rw [starG_lower isSpacePy_lower s]
  apply starG_pair
  intro con rem
  exact pAmount_lower rem

/-!  Theorems about the claims. -/

/-- Claim C1.  The claimed exact recovery of `"<amount> <unit> <name>"` lines
fails for multi-character aliases with a shorter alias as a proper prefix: on
`"2 cups flour"` the alternation matches the alias `"c"` inside `"cups"` and
the ingredient group absorbs the rest, so the code returns ingredient
`"ups flour"` instead of `"flour"`.  The second conjunct shows the recovery
does hold when the unit token is the single-character alias `"c"` itself. -/
theorem parse_cups_splits_unit_token :
    parse_ingredient "2 cups flour" = ⟨"2", "c", "ups flour"⟩ ∧
    parse_ingredient "2 c flour" = ⟨"2", "c", "flour"⟩ := by
  decide

/-- Claim C2.  On `"2 large eggs"` the code does not fold `"large"` into the
ingredient name: the alias `"l"` (liter) matches the first letter of
`"large"`, so the code returns unit `"l"` and ingredient `"arge eggs"`,
contradicting the claimed `(amount "2", unit "", ingredient "large eggs")`.
The second conjunct shows the claimed folding does happen when no alias
matches a prefix of the word, as in `"2 eggs"`. -/
theorem parse_large_eggs_splits_word :
    parse_ingredient "2 large eggs" = ⟨"2", "l", "arge eggs"⟩ ∧
    parse_ingredient "2 eggs" = ⟨"2", "", "eggs"⟩ := by
  decide

/-- Claim C3.  A name-only line is not always passed through: on
`"cinnamon to taste"` (no leading digit, and no word of the line is a unit
alias) the alias `"c"` matches the first letter of `"cinnamon"`, so the code
returns unit `"c"` and ingredient `"innamon to taste"` instead of the claimed
all-but-ingredient-empty triple.  The second conjunct shows the claimed
pass-through on the spec's own example `"salt to taste"`, whose first letter
begins no alias. -/
theorem parse_name_only_not_preserved :
    parse_ingredient "cinnamon to taste" = ⟨"", "c", "innamon to taste"⟩ ∧
    parse_ingredient "salt to taste" = ⟨"", "", "salt to taste"⟩ := by
  decide

/-- Claim C4.  The mixed-number preference itself holds: on
`"2 1/2 cups flour"` the amount group matches the full mixed number
`"2 1/2"`, not just the leading `"2"`, and the unit canonicalizes to `"c"`.
But the claimed full result fails in the ingredient field (`"ups flour"`
instead of `"flour"`), because the alias `"c"` matches inside `"cups"`.  The
second conjunct shows the claimed triple exactly on `"2 1/2 c flour"`. -/
theorem parse_mixed_number_preferred :
    parse_ingredient "2 1/2 cups flour" = ⟨"2 1/2", "c", "ups flour"⟩ ∧
    parse_ingredient "2 1/2 c flour" = ⟨"2 1/2", "c", "flour"⟩ := by
  decide

/-- Claim C5.  `parse_ingredient` is total by construction (the embedding is a
total function, mirroring the Python fallback branch that catches any
non-match), and on every empty or whitespace-only input it returns the
all-empty triple: either the regex fails and the fallback strips the line to
`""`, or it matches with a single whitespace character as the ingredient
capture, which `str.strip` also empties. -/
theorem parse_whitespace_all_empty (s : String)
    (hs : ∀ c ∈ s.toList, isSpacePy c = true) :
    parse_ingredient s = ⟨"", "", ""⟩ := by
  unfold parse_ingredient
  rcases parse_core_spaces s.toList hs with h | ⟨c, hc, h⟩
  · rw [h]
    have he : stripS s = "" := by
      unfold stripS
      rw [stripL_spaces hs]
    rw [he]
  · rw [h]
    have he : stripS (String.mk [c]) = "" := by
      unfold stripS
      have h2 : (String.mk [c]).toList = [c] := rfl
      rw [h2, stripL_spaces (by intro x hx; simp at hx; subst hx; exact hc)]
    show ({ amount := "", unit := "", ingredient := stripS (String.mk [c]) } : Ingredient) = _
    rw [he]

/-- Witness for `parse_whitespace_all_empty` at the input `" \t "`. -/
theorem parse_whitespace_all_empty_witness :
    (∀ c ∈ (" \t " : String).toList, isSpacePy c = true) ∧
    parse_ingredient " \t " = ⟨"", "", ""⟩ :=
  ⟨by decide, parse_whitespace_all_empty " \t " (by decide)⟩

/-- Claim C6.  Unit canonicalization is idempotent: every value of the alias
table is itself a key that maps to itself, and a line whose unit token is
already the canonical abbreviation `"tb"` parses to that same abbreviation. -/
theorem unit_canonicalization_idempotent :
    mealmaster_units.all (fun p => unitLookup p.2 == some p.2) = true ∧
    parse_ingredient "1 tb butter" = ⟨"1", "tb", "butter"⟩ := by
  decide

/-- Claim C7.  Unit matching is case-insensitive and the matched token is
lower-cased before the canonical lookup: lower-casing an entire input line
never changes the unit field of the result, so any casing of an alias after
the amount yields the same canonical unit; in particular `"3 CUPS sugar"`
parses with unit `"c"`. -/
theorem parse_unit_case_insensitive :
    (∀ s : String, (parse_ingredient (toLowerS s)).unit = (parse_ingredient s).unit) ∧
    (parse_ingredient "3 CUPS sugar").unit = "c" := by
  constructor
  · intro s
    unfold parse_ingredient
    have hl : (toLowerS s).toList = lowerL s.toList := rfl
    rw [hl, parse_core_lower s.toList]
    cases hpc : parse_core s.toList with
    | none => rfl
    | some caps =>
      simp only [Option.map_some']
      cases hu : caps.unit with
      | none => rfl
      | some u =>
        show (unitLookup (toLowerS (String.mk (lowerL u)))).getD
              (toLowerS (String.mk (lowerL u))) =
            (unitLookup (toLowerS (String.mk u))).getD (toLowerS (String.mk u))
        have he : toLowerS (String.mk (lowerL u)) = toLowerS (String.mk u) := by
          show String.mk (lowerL (lowerL u)) = String.mk (lowerL u)
          rw [lowerL_idem]
        rw [he]
  · decide

/-- Claim C10.  `parse_recipe` stores the extracted yield under the key
`serving_size`, while `generate_mealmaster` reads `yield_amount`; the output
therefore does not depend on the extracted serving size at all, and the
servings header always renders as `"  Servings: 1 serving"`. -/
theorem servings_header_always_one :
    (∀ (t c : String) (cats : List String) (s₁ s₂ : String)
      (ings : List Ingredient) (dirs : List String),
      generate_mealmaster (mkParsedRecipe t c cats s₁ ings dirs) =
      generate_mealmaster (mkParsedRecipe t c cats s₂ ings dirs)) ∧
    memS "  Servings: 1 serving"
      (linesOf (generate_mealmaster
        (mkParsedRecipe "Cake" "Dessert" ["Dessert"] "8 servings" [] []))) = true :=
  ⟨fun _ _ _ _ _ _ _ => rfl, by decide⟩

/-- Claim C8.  Each ingredient renders as the amount right-justified to width
7, one space, the unit left-justified to width 2, one space, then the
ingredient name unaligned; the golden block checks the exact layout, blank
lines, and sentinels byte for byte. -/
theorem mealmaster_ingredient_line_format :
    (∀ i : Ingredient,
      mmIngLine i =
        spacesS (7 - i.amount.length) ++ i.amount ++ " " ++
        (i.unit ++ spacesS (2 - i.unit.length)) ++ " " ++ i.ingredient) ∧
    generate_mealmaster (mkParsedRecipe "Pancakes" "Breakfast" ["Breakfast"]
        "4 servings"
        [⟨"2 1/2", "c", "flour"⟩, ⟨"2", "", "eggs"⟩, ⟨"", "", "salt to taste"⟩]
        ["Mix.", "Cook."]) =
      "MMMMM----------------Meal-Master recipe exported by AnyMeal-----------------\n     Title: Pancakes\nCategories: Breakfast\n  Servings: 1 serving\n\n  2 1/2 c  flour\n      2    eggs\n           salt to taste\n\nMix.\n\nCook.\n\nMMMMM" :=
  ⟨fun _ => rfl, by decide⟩

/-- Claim C9, counterexample.  The key-value dump of `src/convert.py` does not
output Parsed Ingredient triples: its ingredient entries are the raw line
strings.  The lines `"2  c flour"` and `"2 c flour"` parse to the same triple,
yet the dumps of two otherwise identical recipes holding them differ — so the
dump is not a function of the parsed triples plus the remaining fields. -/
theorem conv_dump_distinguishes_equal_parses :
    parse_ingredient "2  c flour" = parse_ingredient "2 c flour" ∧
    save_recipes_to_file
        [⟨"Cake", "Dessert", ["Dessert"], "8", ["2  c flour"], ["Bake."]⟩] ≠
      save_recipes_to_file
        [⟨"Cake", "Dessert", ["Dessert"], "8", ["2 c flour"], ["Bake."]⟩] := by
  decide

/-- Claim C9, amended.  The key-value dump writes the original recipe fields
as label-colon-value lines and the raw (unparsed) ingredient strings one per
line prefixed with `"  - "`, checked byte for byte on a concrete recipe. -/
theorem conv_dump_raw_key_value :
    save_recipes_to_file
        [⟨"Cake", "Dessert", ["Dessert"], "8", ["2  c flour"], ["Bake."]⟩] =
      "Title: Cake\nCourse: Dessert\nCategories: Dessert\nServing Size: 8\nIngredients:\n  - 2  c flour\nDirections:\n  - Bake.\n\n" ∧
    memS "  - 2  c flour"
      (linesOf (save_recipes_to_file
        [⟨"Cake", "Dessert", ["Dessert"], "8", ["2  c flour"], ["Bake."]⟩])) = true := by
  decide

end RecipeKeeper
